import Mathlib

/-!
Verification development for the PocketMunster math-sdk core.

This file gives a shallow embedding, in Lean 4, of the parts of the
repository that the verified properties are about:

* the weighted win-distribution statistics of
  `src/utils/analysis/distribution_functions.py`;
* the cluster detection of
  `src/games/pokemon_genesis_reels/gamestate.py` (`find_cluster`,
  `get_current_clusters`, `symbols_match`);
* the cascade loop of `GameState.run_spin` in the same file;
* the acceptance re-draw check of
  `src/games/0_0_ways/game_override.py` (`check_repeat`) and the
  accept/redraw loop of `run_spin`;
* the position-multiplier progression of
  `src/games/0_0_cluster/game_executables.py` (`update_grid_mults`);
* the force-index queries of
  `src/utils/search_tool/forcetool_ids.py`
  (`find_partial_key_match`, `find_union_key_match`).

Python floats are embedded as exact rationals (`ℚ`); code paths that
raise (`ZeroDivisionError`, `ValueError`, the force-tool error classes)
are embedded as `Except String`.  A Python `dict` keyed by payout is
embedded as an association list `List (ℚ × ℚ)` of `(payout, weight)`
pairs, with key distinctness/orderedness as hypotheses where the code
relies on `dict` construction.
-/

/-! ### Win distributions (`src/utils/analysis/distribution_functions.py`)

A win distribution, as produced by `make_win_distribution`, is a mapping
from payout to aggregated weight, ordered by ascending payout. -/

/-- A win distribution: `(payout, weight)` pairs (`Dict[float, float]`). -/
abbrev WinDist : Type := List (ℚ × ℚ)

/-- The payouts of a distribution (`dist.keys()`). -/
def distKeys (dist : WinDist) : List ℚ := dist.map Prod.fst

/-- `sum(list(dist.values()))`. -/
def totalWeight (dist : WinDist) : ℚ := (dist.map Prod.snd).sum

/-- `np.dot(list(dist.keys()), list(dist.values()))`. -/
def dotSum (dist : WinDist) : ℚ := (dist.map (fun e => e.1 * e.2)).sum

/-- The value of `np.average(keys, weights=values)` when the weights do
not sum to zero (junk value `0` otherwise; only used under that guard). -/
def avgVal (dist : WinDist) : ℚ := dotSum dist / totalWeight dist

/-- `get_distribution_average(dist)`.  `np.average` raises
`ZeroDivisionError` when the weights sum to zero (in particular on an
empty distribution). -/
def get_distribution_average (dist : WinDist) : Except String ℚ :=
  if totalWeight dist = 0 then .error "ZeroDivisionError" else .ok (avgVal dist)

/-- The weighted variance accumulated inside `get_distribution_moments`:
`variance += ((pay - av_win) ** 2) * (weight / total_weight)`. -/
def distVariance (dist : WinDist) : ℚ :=
  (dist.map (fun e => (e.1 - avgVal dist) ^ 2 * (e.2 / totalWeight dist))).sum

/-- `get_distribution_moments(dist)`, embedded up to its raising
behaviour.  The Python function computes `standard_dev = sqrt(variance)`
and then divides the raw third and fourth central moments by
`standard_dev ** 3` and `standard_dev ** 4`, which raises
`ZeroDivisionError` exactly when `standard_dev = 0`; since
`variance ≥ 0`, `sqrt(variance) = 0` iff `variance = 0`.  The (for the
verified claims irrelevant, and in general irrational) skewness and
kurtosis values are elided: the embedding returns the variance, and
errors exactly where the Python function raises. -/
def get_distribution_moments (dist : WinDist) : Except String ℚ :=
  match get_distribution_average dist with
  | .error e => .error e
  | .ok av =>
    let variance := (dist.map (fun e => (e.1 - av) ^ 2 * (e.2 / totalWeight dist))).sum
    if variance = 0 then .error "ZeroDivisionError" else .ok variance

/-- The loop of `get_distribution_median`: walk the distribution in
order, accumulating weight, and return the first payout at which the
accumulated weight reaches half the total; `0.0` if the loop finishes. -/
def medianGo : List (ℚ × ℚ) → ℚ → ℚ → ℚ
  | [], _, _ => 0
  | (p, w) :: rest, cum, tot =>
    if cum + w ≥ tot / 2 then p else medianGo rest (cum + w) tot

/-- `get_distribution_median(dist)` (with `total_weight=None`, so the
total weight is computed from the distribution). -/
def get_distribution_median (dist : WinDist) : ℚ :=
  medianGo dist 0 (totalWeight dist)

/-- Cumulative weight of all payouts `≤ x` (the mathematical
"cumulative weight at `x`" the median is specified against). -/
def cumWeightUpTo (dist : WinDist) (x : ℚ) : ℚ :=
  ((dist.filter (fun e => decide (e.1 ≤ x))).map Prod.snd).sum

/-- `dist[0]`, the weight stored at payout `0` (defined when `0` is a
key; junk `0` otherwise — the code only reads it after checking
`min(dist.keys()) == 0`). -/
def distLookupZero (dist : WinDist) : ℚ :=
  ((dist.find? (fun e => decide (e.1 = 0))).map Prod.snd).getD 0

/-- `non_zero_hitrate(dist)` (with `total_weight=None`).  `min()` of an
empty sequence raises `ValueError`; `1 / (1 - dist[0]/total_weight)`
raises `ZeroDivisionError` when the denominator is zero (and
`dist[0]/total_weight` itself raises when the total weight is zero). -/
def non_zero_hitrate (dist : WinDist) : Except String ℚ :=
  match dist with
  | [] => .error "ValueError"
  | (p0, _) :: rest =>
    let m := (rest.map Prod.fst).foldl min p0
    if m = 0 then
      let tot := totalWeight dist
      if tot = 0 then .error "ZeroDivisionError"
      else
        let d := 1 - distLookupZero dist / tot
        if d = 0 then .error "ZeroDivisionError" else .ok (1 / d)
    else .ok 1

/-- `dist[max(dist.keys())]`, the weight stored at the largest payout. -/
def distLookupMax (dist : WinDist) (m : ℚ) : ℚ :=
  ((dist.find? (fun e => decide (e.1 = m))).map Prod.snd).getD 0

/-- `get_maxwin_hitrate(dist)` (with `total_weight=None`). -/
def get_maxwin_hitrate (dist : WinDist) : Except String ℚ :=
  match dist with
  | [] => .error "ValueError"
  | (p0, _) :: rest =>
    let m := (rest.map Prod.fst).foldl max p0
    let tot := totalWeight dist
    if tot = 0 then .error "ZeroDivisionError"
    else
      let prob := distLookupMax dist m / tot
      if prob = 0 then .error "ZeroDivisionError" else .ok (1 / prob)

/-- `get_prob_no_win(dist)` (with `total_weight=None`): returns
`dist[0]` when the smallest payout is `0`, else `0`. -/
def get_prob_no_win (dist : WinDist) : Except String ℚ :=
  match dist with
  | [] => .error "ValueError"
  | (p0, _) :: rest =>
    let m := (rest.map Prod.fst).foldl min p0
    if m = 0 then .ok (distLookupZero dist) else .ok 0

/-- `prob_less_than_bet(dist, bet_cost)` (with `total_weight=None`):
sum of weights of payouts strictly below the bet cost, divided by the
total weight (which raises `ZeroDivisionError` when zero, in
particular on the empty distribution). -/
def prob_less_than_bet (dist : WinDist) (bet_cost : ℚ) : Except String ℚ :=
  let tot := totalWeight dist
  let cum := ((dist.filter (fun e => decide (e.1 < bet_cost))).map Prod.snd).sum
  if tot = 0 then .error "ZeroDivisionError" else .ok (cum / tot)

/-- The list `[abs(wins[i+1] - wins[i])]` of consecutive differences. -/
def consecDiffs : List ℚ → List ℚ
  | a :: b :: rest => |b - a| :: consecDiffs (b :: rest)
  | _ => []

/-- `min_dist_difference(dist)`: `0` when there are fewer than two
payouts, otherwise the minimal consecutive payout difference scaled by
100 and rounded to an integer. -/
def min_dist_difference (dist : WinDist) : ℤ :=
  match consecDiffs (distKeys dist) with
  | [] => 0
  | d :: ds => round ((ds.foldl min d) * 100)

/-! ### Cluster detection (`src/games/pokemon_genesis_reels/gamestate.py`)

`GameState.find_cluster` is an iterative depth-first search over the
board, with a `visited` set that is shared across all calls made by
`get_current_clusters`.  Board cells can be `None` (embedded as
`Option.none`); stack coordinates can go negative (embedded as `ℤ`),
and out-of-bounds entries are skipped inside the loop exactly as the
Python bounds checks do. -/

/-- The configuration fields `find_cluster` and `symbols_match` read:
`config.special_symbols["wild"]`, `config.pokemon_data` (its keys), and
`config.special_symbols["evolution_stones"]`. -/
structure ClusterConfig where
  wildSymbols : List String
  pokemonData : List String
  evolutionStones : List String

/-- A drawn board: rows of cells, a cell being a symbol or `None`. -/
abbrev Board := List (List (Option String))

/-- A board position `(row, col)`; `ℤ` because the Python DFS pushes
coordinates like `row - 1` that may be negative. -/
abbrev Pos := ℤ × ℤ

/-- Python `x in list_of_strings` for a possibly-`None` symbol
(`None in [...]` is `False`). -/
def memOpt (s : Option String) (l : List String) : Bool :=
  match s with
  | none => false
  | some x => l.contains x

/-- `GameState.symbols_match(symbol1, symbol2)`: equal symbols match;
otherwise a wild matches provided at least one side is a Pokemon. -/
def symbols_match (cfg : ClusterConfig) (s1 s2 : Option String) : Bool :=
  (s1 == s2) ||
    ((memOpt s1 cfg.wildSymbols || memOpt s2 cfg.wildSymbols) &&
      (memOpt s1 cfg.pokemonData || memOpt s2 cfg.pokemonData))

/-- The bounds check of the DFS loop:
`0 ≤ row < len(board) and 0 ≤ col < len(board[row])`. -/
def boardInBounds (board : Board) (p : Pos) : Bool :=
  decide (0 ≤ p.1) && decide (p.1 < (board.length : ℤ)) &&
    decide (0 ≤ p.2) && decide (p.2 < (((board.getD p.1.toNat []).length : ℤ)))

/-- `board[row][col]` for an in-bounds position (junk `none` otherwise;
always used behind `boardInBounds`). -/
def boardCell (board : Board) (p : Pos) : Option String :=
  (board.getD p.1.toNat []).getD p.2.toNat none

/-- The `while stack:` loop of `find_cluster`.  The stack top is the
list head; pushed neighbours are reversed so that head-popping visits
them in the same order as Python's `list.pop()` from the tail.  `fuel`
is an upper bound on loop iterations (the Python loop terminates
because every iteration either consumes a stack entry or marks a fresh
cell visited, pushing at most four entries); all invariants below are
proved for every fuel value. -/
def findClusterLoop (cfg : ClusterConfig) (board : Board) (sym : String) :
    ℕ → List Pos → List Pos → List Pos → List Pos × List Pos
  | 0, _, visited, cluster => (cluster, visited)
  | _ + 1, [], visited, cluster => (cluster, visited)
  | fuel + 1, p :: stack, visited, cluster =>
    if p ∈ visited ∨ ¬ boardInBounds board p then
      findClusterLoop cfg board sym fuel stack visited cluster
    else if ¬ symbols_match cfg (some sym) (boardCell board p) then
      findClusterLoop cfg board sym fuel stack visited cluster
    else
      findClusterLoop cfg board sym fuel
        ((([(p.1, p.2 + 1), (p.1, p.2 - 1), (p.1 + 1, p.2), (p.1 - 1, p.2)]).filter
            (fun q => decide (q ∉ visited))).reverse ++ stack)
        (p :: visited) (cluster ++ [p])

/-- Total number of board cells. -/
def boardCellCount (board : Board) : ℕ := (board.map List.length).sum

/-- Enough fuel for the DFS loop: at most one initial stack entry plus
four pushes per visited cell, and one pop per iteration. -/
def clusterFuel (board : Board) : ℕ := 5 * boardCellCount board + 5

/-- `GameState.find_cluster(start_row, start_col, visited)`: returns the
cluster found from the start position, together with the updated shared
`visited` set (mutated in place in Python). -/
def find_cluster (cfg : ClusterConfig) (board : Board) (p : Pos)
    (visited : List Pos) : List Pos × List Pos :=
  if ¬ boardInBounds board p then ([], visited)
  else if p ∈ visited then ([], visited)
  else
    match boardCell board p with
    | none => ([], visited)
    | some sym =>
      if sym = "" ∨ cfg.evolutionStones.contains sym then ([], visited)
      else findClusterLoop cfg board sym (clusterFuel board) [p] visited []

/-- All board positions in the row-major scan order of
`get_current_clusters`. -/
def rowMajorPositions (board : Board) : List Pos :=
  (List.range board.length).flatMap
    (fun r => (List.range (board.getD r []).length).map (fun c => ((r : ℤ), (c : ℤ))))

/-- The scan loop of `get_current_clusters`: call `find_cluster` on
every not-yet-visited position, keeping clusters of size `≥ 5`. -/
def gccAux (cfg : ClusterConfig) (board : Board) :
    List Pos → List Pos → List (List Pos) → List (List Pos)
  | [], _, acc => acc
  | p :: rest, visited, acc =>
    if p ∈ visited then gccAux cfg board rest visited acc
    else if 5 ≤ (find_cluster cfg board p visited).1.length then
      gccAux cfg board rest (find_cluster cfg board p visited).2
        (acc ++ [(find_cluster cfg board p visited).1])
    else gccAux cfg board rest (find_cluster cfg board p visited).2 acc

/-- `GameState.get_current_clusters()`. -/
def get_current_clusters (cfg : ClusterConfig) (board : Board) : List (List Pos) :=
  gccAux cfg board (rowMajorPositions board) [] []

/-! ### The cascade loop of `GameState.run_spin`
(`src/games/pokemon_genesis_reels/gamestate.py`)

The loop is
`while self.win_data["totalWin"] > 0 and not self.wincap_triggered:`;
its body tumbles the board and re-evaluates clusters, overwriting
`win_data["totalWin"]` with the new evaluation's total.  Nothing in the
loop body sets `wincap_triggered` (`evaluate_finalwin`, the only writer,
runs after the loop), so the flag keeps the value it has on entry.  The
loop is embedded over the trace of totals produced by the successive
evaluations (`draws`); when the modelled trace is exhausted while the
guard still holds, the current cascade level is returned (the Python
loop would simply keep running on further draws). -/

/-- The cascade loop: `draws` are the totals of the successive
re-evaluations, `totalWin` the current total, `wincapTriggered` the
flag (never written in the loop body), `cascadeLevel` the iteration
counter `self.cascade_level`.  Returns the final cascade level, i.e.
the number of loop iterations executed. -/
def cascadeLoop : List ℚ → ℚ → Bool → ℕ → ℕ
  | [], _, _, cascadeLevel => cascadeLevel
  | d :: rest, totalWin, wincapTriggered, cascadeLevel =>
    if 0 < totalWin ∧ wincapTriggered = false then
      cascadeLoop rest d wincapTriggered (cascadeLevel + 1)
    else cascadeLevel

/-! ### Acceptance check and accept/redraw loop
(`src/games/0_0_ways/game_override.py` and
`src/games/fifty_fifty/gamestate.py`)

`GameStateOverride.check_repeat` first calls the base
`check_repeat` (which may set `self.repeat` for other criteria; its
outcome is the `superRepeat` parameter) and then, only when the round
was not already rejected, enforces the declared win criterion. -/

/-- `check_repeat`: the resulting value of `self.repeat`.
`superRepeat` is `self.repeat` as left by `super().check_repeat()`,
`final_win` is `self.final_win`, `win_criteria` the declared exact win
criterion (`None` when the distribution declares none). -/
def check_repeat_ways (superRepeat : Bool) (final_win : ℚ)
    (win_criteria : Option ℚ) : Bool :=
  if superRepeat then true
  else
    match win_criteria with
    | some c => if final_win ≠ c then true else false
    | none => if final_win = 0 then true else false

/-- The `while self.repeat:` accept/redraw loop of `run_spin`: each
list element is one drawn round, as the pair (outcome of the base
`check_repeat`, final win of the round).  The loop redraws until
`check_repeat` leaves `repeat = False`, and the accepted round's final
win is returned (`none` when the modelled trace is exhausted while
still repeating). -/
def runSpinLoop (win_criteria : Option ℚ) : List (Bool × ℚ) → Option ℚ
  | [] => none
  | (superRepeat, w) :: rest =>
    if check_repeat_ways superRepeat w win_criteria then runSpinLoop win_criteria rest
    else some w

/-! ### Position-multiplier progression
(`src/games/0_0_cluster/game_executables.py`)

`update_grid_mults` doubles the stored value at every winning position
(`0 → 2 → 4 → ...`), clamped with `min(nxt, maximum_board_mult)`;
`reset_grid_mults` initialises the overlay to all zeros at round
start. -/

/-- Replace the `i`-th element of a list by `f` of it (out-of-range
indices leave the list unchanged; the win positions the caller supplies
are board positions, hence in range). -/
def updAt {α : Type} : List α → ℕ → (α → α) → List α
  | [], _, _ => []
  | x :: xs, 0, f => f x :: xs
  | x :: xs, n + 1, f => x :: updAt xs n f

/-- One position update of `update_grid_mults`:
`nxt = 2 if cur <= 0 else cur * 2; grid[c][r] = min(nxt, cap)`. -/
def gridStep (cap : ℕ) (cur : ℕ) : ℕ :=
  min (if cur = 0 then 2 else cur * 2) cap

/-- Apply `gridStep` at one `(reel, row)` position of the overlay
(the source indexes `self.position_multipliers[c][r]`). -/
def applyWinPos (cap : ℕ) (grid : List (List ℕ)) (pos : ℕ × ℕ) : List (List ℕ) :=
  updAt grid pos.1 (fun col => updAt col pos.2 (gridStep cap))

/-- `GameExecutables.update_grid_mults`: fold one win-evaluation's
position list (all positions of all wins of the step, in order) over
the overlay.  An empty position list (the `totalWin == 0` guard) is a
no-op. -/
def update_grid_mults (cap : ℕ) (grid : List (List ℕ)) (positions : List (ℕ × ℕ)) :
    List (List ℕ) :=
  positions.foldl (applyWinPos cap) grid

/-- `GameExecutables.reset_grid_mults`: the all-zero overlay, one list
of `num_rows[reel]` zeros per reel. -/
def reset_grid_mults (numReels : ℕ) (numRows : ℕ → ℕ) : List (List ℕ) :=
  (List.range numReels).map (fun reel => List.replicate (numRows reel) 0)

/-- Modelled from the spec: the configured cap
`config.maximum_board_mult` of the cluster game.  The game's
`game_config.py` is not part of the sources; the code's own docstring
describes the progression as `x1→x2→x4...→x8192`, so the cap is
modelled as the power of two `8192`. -/
def maximum_board_mult : ℕ := 8192

/-! ### Force-index queries (`src/utils/search_tool/forcetool_ids.py`)

A force-file entry carries a list of `(name, value)` search fields and
a list of book ids.  `transform_search_dict` builds a `dict` from the
fields in order (later duplicates overwrite earlier ones). -/

/-- One force-file record (`{"search": [...], "bookIds": [...]}`). -/
structure ForceEntry where
  search : List (String × String)
  bookIds : List ℤ

/-- Lookup in the `dict` built by `transform_search_dict`: the value of
the last field with the given name (`dict.get`, `none` if absent). -/
def transformSearchLookup (entry : ForceEntry) (k : String) : Option String :=
  (entry.search.reverse.find? (fun e => e.1 == k)).map Prod.snd

/-- `all(transformed_search.get(key) == value for key, value in
search_keys.items())`. -/
def entryMatches (search_keys : List (String × String)) (entry : ForceEntry) : Bool :=
  search_keys.all (fun kv => transformSearchLookup entry kv.1 == some kv.2)

/-- The accumulation loop of `find_partial_key_match`: the union of the
book-id sets of all matching entries. -/
def matchedBookIds (search_keys : List (String × String))
    (force_data : List ForceEntry) : Finset ℤ :=
  force_data.foldl
    (fun acc e => if entryMatches search_keys e then acc ∪ e.bookIds.toFinset else acc) ∅

/-- `ForceTool.find_partial_key_match(search_keys)`: validation error on
an empty key, `ForceToolError` when nothing matches, otherwise the set
of matching book ids. -/
def find_partial_key_match (search_keys : List (String × String))
    (force_data : List ForceEntry) : Except String (Finset ℤ) :=
  if search_keys = [] then .error "ForceToolValidationError"
  else
    let matched := matchedBookIds search_keys force_data
    if matched = ∅ then .error "ForceToolError" else .ok matched

/-- The per-criterion collection loop of `find_union_key_match`
(`id_sets`), propagating the first error. -/
def collectIdSets (force_data : List ForceEntry) :
    List (List (String × String)) → Except String (List (Finset ℤ))
  | [] => .ok []
  | k :: rest =>
    match find_partial_key_match k force_data with
    | .error e => .error e
    | .ok s =>
      match collectIdSets force_data rest with
      | .error e => .error e
      | .ok ss => .ok (s :: ss)

/-- `ForceTool.find_union_key_match(search_array)`: requires at least
two criteria, collects the per-criterion id sets, and returns
`set.intersection(*id_sets)`, erroring when the intersection is
empty. -/
def find_union_key_match (search_array : List (List (String × String)))
    (force_data : List ForceEntry) : Except String (Finset ℤ) :=
  if search_array = [] then .error "ForceToolValidationError"
  else if search_array.length < 2 then .error "ForceToolValidationError"
  else
    match collectIdSets force_data search_array with
    | .error e => .error e
    | .ok sets =>
      match sets with
      | [] => .error "ForceToolError"
      | s :: rest =>
        let inter := rest.foldl (fun a b => a ∩ b) s
        if inter = ∅ then .error "ForceToolError" else .ok inter

/-- The mathematical intersection of the per-key match sets (what the
spec says a multi-key query returns). -/
def interMatchSets (search_array : List (List (String × String)))
    (force_data : List ForceEntry) : Finset ℤ :=
  match search_array.map (fun k => matchedBookIds k force_data) with
  | [] => ∅
  | s :: rest => rest.foldl (fun a b => a ∩ b) s

/-- `P(payout > 0)`: total weight on strictly positive payouts of a win
distribution (the probability when the distribution is normalized). -/
def probPositive (dist : WinDist) : ℚ :=
  ((dist.filter (fun e => decide (0 < e.1))).map Prod.snd).sum

/-! ### Concrete instances used by counterexamples and witnesses -/

/-- A small cluster configuration: one wild `W`, two Pokemon `A`, `B`,
no evolution stones. -/
def wildCfg : ClusterConfig :=
  { wildSymbols := ["W"], pokemonData := ["A", "B"], evolutionStones := [] }

/-- A board on which the wild at `(2,1)` is 4-directionally adjacent to
both the `A`-cluster (column 0, size 5) and the `B`-cluster (column 2,
size 5). -/
def wildAdjacencyBoard : Board :=
  [[some "A", none, some "B"],
   [some "A", none, some "B"],
   [some "A", some "W", some "B"],
   [some "A", none, some "B"],
   [some "A", none, some "B"]]

/-! ## Helper lemmas -/

theorem dotSum_cons (e : ℚ × ℚ) (l : WinDist) :
    dotSum (e :: l) = e.1 * e.2 + dotSum l := by
  simp [dotSum]

theorem totalWeight_cons (e : ℚ × ℚ) (l : WinDist) :
    totalWeight (e :: l) = e.2 + totalWeight l := by
  simp [totalWeight]

theorem dotSum_of_const (dist : WinDist) (c : ℚ) (h : ∀ e ∈ dist, e.1 = c) :
    dotSum dist = c * totalWeight dist := by
  induction dist with
  | nil => simp [dotSum, totalWeight]
  | cons e rest ih =>
    have he : e.1 = c := h e (by simp)
    have hrest : ∀ x ∈ rest, x.1 = c := fun x hx => h x (by simp [hx])
    rw [dotSum_cons, totalWeight_cons, he, ih hrest]
    ring

theorem varSum_of_const (dist : WinDist) (c t : ℚ) (h : ∀ e ∈ dist, e.1 = c) :
    (dist.map (fun e => (e.1 - c) ^ 2 * (e.2 / t))).sum = 0 := by
  induction dist with
  | nil => simp
  | cons e rest ih =>
    have he : e.1 = c := h e (by simp)
    have hrest : ∀ x ∈ rest, x.1 = c := fun x hx => h x (by simp [hx])
    simp only [List.map_cons, List.sum_cons, he, ih hrest, sub_self]
    ring

theorem totalWeight_pos (dist : WinDist) (hne : dist ≠ [])
    (hw : ∀ w ∈ dist.map Prod.snd, 0 < w) : 0 < totalWeight dist := by
  apply List.sum_pos _ hw
  simpa using hne

theorem foldl_min_le_init {α : Type} [LinearOrder α] (l : List α) (a : α) :
    l.foldl min a ≤ a := by
  induction l generalizing a with
  | nil => simp
  | cons x xs ih => exact le_trans (ih (min a x)) (min_le_left a x)

theorem foldl_min_le_mem {α : Type} [LinearOrder α] (l : List α) (a q : α)
    (hq : q ∈ l) : l.foldl min a ≤ q := by
  induction l generalizing a with
  | nil => cases hq
  | cons x xs ih =>
    rcases List.mem_cons.mp hq with rfl | h
    · exact le_trans (foldl_min_le_init xs (min a q)) (min_le_right a q)
    · exact ih (min a x) h

theorem foldl_min_mem {α : Type} [LinearOrder α] (l : List α) (a : α) :
    l.foldl min a = a ∨ l.foldl min a ∈ l := by
  induction l generalizing a with
  | nil => simp
  | cons x xs ih =>
    simp only [List.foldl_cons]
    rcases ih (min a x) with h | h
    · rcases le_total a x with hax | hxa
      · left; rw [h, min_eq_left hax]
      · right; rw [h, min_eq_right hxa]; exact List.mem_cons_self x xs
    · right; exact List.mem_cons_of_mem x h

theorem distKeys_cons (e : ℚ × ℚ) (l : WinDist) :
    distKeys (e :: l) = e.1 :: distKeys l := by
  simp [distKeys]

theorem distLookupZero_not_mem (dist : WinDist) (h : (0 : ℚ) ∉ distKeys dist) :
    distLookupZero dist = 0 := by
  have : dist.find? (fun e => decide (e.1 = 0)) = none := by
    rw [List.find?_eq_none]
    intro e he hdec
    exact h (by simpa [distKeys, of_decide_eq_true hdec] using List.mem_map_of_mem Prod.fst he)
  simp [distLookupZero, this]

theorem totalWeight_split (dist : WinDist) (hnodup : (distKeys dist).Nodup)
    (hkeys : ∀ p ∈ distKeys dist, 0 ≤ p) :
    totalWeight dist = distLookupZero dist + probPositive dist := by
  induction dist with
  | nil => simp [totalWeight, distLookupZero, probPositive]
  | cons e rest ih =>
    obtain ⟨p, w⟩ := e
    rw [distKeys_cons, List.nodup_cons] at hnodup
    have hnd := hnodup.2
    have hkrest : ∀ q ∈ distKeys rest, 0 ≤ q := by
      intro q hq; exact hkeys q (by rw [distKeys_cons]; exact List.mem_cons_of_mem _ hq)
    rw [totalWeight_cons, ih hnd hkrest]
    by_cases hp : p = 0
    · subst hp
      have hz0 : distLookupZero rest = 0 := distLookupZero_not_mem rest hnodup.1
      have hz : distLookupZero (((0 : ℚ), w) :: rest) = w := by
        simp [distLookupZero, List.find?]
      have hpp : probPositive (((0 : ℚ), w) :: rest) = probPositive rest := by
        simp [probPositive, List.filter]
      rw [hz, hpp, hz0]; ring
    · have hz : distLookupZero ((p, w) :: rest) = distLookupZero rest := by
        simp [distLookupZero, List.find?, hp]
      have hppos : 0 < p :=
        lt_of_le_of_ne (hkeys p (by rw [distKeys_cons]; exact List.mem_cons_self _ _)) (Ne.symm hp)
      have hpp : probPositive ((p, w) :: rest) = w + probPositive rest := by
        simp [probPositive, List.filter, hppos]
      rw [hz, hpp]; ring

/-- C5: for a normalized non-empty win distribution (distinct,
non-negative payouts) with non-zero probability of a strictly positive
payout, `non_zero_hitrate` returns `1 / P(payout > 0)`; in particular it
returns `1` when no zero payout is present (then `P(payout > 0) = 1`). -/
theorem non_zero_hitrate_eq_inv_prob_positive (dist : WinDist)
    (hne : dist ≠ []) (hnodup : (distKeys dist).Nodup)
    (hkeys : ∀ p ∈ distKeys dist, 0 ≤ p) (hnorm : totalWeight dist = 1)
    (hP : probPositive dist ≠ 0) :
    non_zero_hitrate dist = .ok (1 / probPositive dist) := by
  match dist, hne with
  | (p0, w0) :: rest, _ =>
    have hsplit := totalWeight_split ((p0, w0) :: rest) hnodup hkeys
    rw [hnorm] at hsplit
    have hmmem : ((rest.map Prod.fst).foldl min p0) ∈ distKeys ((p0, w0) :: rest) := by
      rw [distKeys_cons]
      rcases foldl_min_mem (rest.map Prod.fst) p0 with h | h
      · rw [h]; exact List.mem_cons_self _ _
      · exact List.mem_cons_of_mem _ (by simpa [distKeys] using h)
    simp only [non_zero_hitrate]
    by_cases hm : (rest.map Prod.fst).foldl min p0 = 0
    · rw [if_pos hm, if_neg (by rw [hnorm]; norm_num : ¬ totalWeight ((p0, w0) :: rest) = 0)]
      have hd : 1 - distLookupZero ((p0, w0) :: rest) / totalWeight ((p0, w0) :: rest) =
          probPositive ((p0, w0) :: rest) := by
        rw [hnorm, div_one]; linarith [hsplit]
      rw [hd, if_neg hP]
    · rw [if_neg hm]
      have h0 : (0 : ℚ) ∉ distKeys ((p0, w0) :: rest) := by
        intro h0mem
        apply hm
        have hle : (rest.map Prod.fst).foldl min p0 ≤ 0 := by
          rw [distKeys_cons] at h0mem
          rcases List.mem_cons.mp h0mem with h | h
          · have hp0 : p0 = 0 := by simpa using h.symm
            exact le_trans (foldl_min_le_init _ _) (le_of_eq hp0)
          · exact foldl_min_le_mem _ _ _ (by simpa [distKeys] using h)
        have hge : 0 ≤ (rest.map Prod.fst).foldl min p0 := hkeys _ hmmem
        linarith
      have hz : distLookupZero ((p0, w0) :: rest) = 0 := distLookupZero_not_mem _ h0
      rw [hz] at hsplit
      rw [show probPositive ((p0, w0) :: rest) = 1 by linarith [hsplit]]
      norm_num

/-- Witness for C5 at the concrete normalized distribution
`{0 ↦ 1/2, 2 ↦ 1/2}`: the hit-rate is `1 / P(payout > 0) = 2`. -/
theorem non_zero_hitrate_eq_inv_prob_positive_witness :
    non_zero_hitrate [((0 : ℚ), (1 : ℚ)/2), ((2 : ℚ), (1 : ℚ)/2)] =
      .ok (1 / probPositive [((0 : ℚ), (1 : ℚ)/2), ((2 : ℚ), (1 : ℚ)/2)]) :=
  non_zero_hitrate_eq_inv_prob_positive _ (by simp) (by norm_num [distKeys])
    (by norm_num [distKeys]) (by norm_num [totalWeight])
    (by norm_num [probPositive, List.filter])

/-- C10: on any non-empty distribution whose payouts are all equal (so
the weighted variance is zero) with positive weights,
`get_distribution_moments` raises `ZeroDivisionError` (the divisions by
`standard_dev ** 3` and `standard_dev ** 4` are unguarded). -/
theorem moments_divzero_on_constant_distribution (dist : WinDist) (c : ℚ)
    (hne : dist ≠ []) (hconst : ∀ p ∈ distKeys dist, p = c)
    (hw : ∀ w ∈ dist.map Prod.snd, 0 < w) :
    (get_distribution_moments dist).isOk = false := by
  have htot : 0 < totalWeight dist := totalWeight_pos dist hne hw
  have hconst' : ∀ e ∈ dist, e.1 = c := by
    intro e he; exact hconst e.1 (List.mem_map_of_mem Prod.fst he)
  have havg : avgVal dist = c := by
    rw [avgVal, dotSum_of_const dist c hconst']
    field_simp
  simp only [get_distribution_moments, get_distribution_average, if_neg htot.ne', havg]
  rw [varSum_of_const dist c (totalWeight dist) hconst']
  simp only [if_pos rfl]
  rfl

/-- Witness for C10 at the concrete constant table `{7 ↦ 3}`. -/
theorem moments_divzero_on_constant_distribution_witness :
    (get_distribution_moments [((7 : ℚ), (3 : ℚ))]).isOk = false :=
  moments_divzero_on_constant_distribution [((7 : ℚ), (3 : ℚ))] 7
    (by simp) (by norm_num [distKeys]) (by norm_num)

/-- C7 (amended): an outcome table of `N` copies of the same payout `P`
(aggregated to the single entry `{P ↦ N}` by `make_win_distribution`)
has mean `P`; the weighted variance computed inside
`get_distribution_moments` is `0`, but `get_distribution_moments`
itself raises `ZeroDivisionError` (dividing by `standard_dev ** 3`)
instead of returning it; the hit-rate is `1` when `P > 0`, and raises
`ZeroDivisionError` when `P = 0`. -/
theorem constant_table_statistics (P N : ℚ) (hN : 0 < N) :
    get_distribution_average [(P, N)] = .ok P ∧
    distVariance [(P, N)] = 0 ∧
    (get_distribution_moments [(P, N)]).isOk = false ∧
    (0 < P → non_zero_hitrate [(P, N)] = .ok 1) ∧
    (P = 0 → (non_zero_hitrate [(P, N)]).isOk = false) := by
  have hN' : N ≠ 0 := hN.ne'
  have htot : totalWeight [(P, N)] = N := by simp [totalWeight]
  have havg : avgVal [(P, N)] = P := by
    rw [avgVal, totalWeight, dotSum]
    simp
    field_simp
  refine ⟨?_, ?_, ?_, ?_, ?_⟩
  · rw [get_distribution_average, if_neg (by rw [htot]; exact hN'), havg]
  · simp [distVariance, havg]
  · simp only [get_distribution_moments, get_distribution_average,
      if_neg (show ¬ totalWeight [(P, N)] = 0 by rw [htot]; exact hN'), havg]
    rw [if_pos (show (([(P, N)] : WinDist).map
        (fun e => (e.1 - P) ^ 2 * (e.2 / totalWeight [(P, N)]))).sum = 0 by simp)]
    rfl
  · intro hP
    simp only [non_zero_hitrate, List.map_nil, List.foldl_nil]
    rw [if_neg hP.ne']
  · rintro rfl
    simp only [non_zero_hitrate, List.map_nil, List.foldl_nil, if_pos rfl]
    rw [if_neg (show ¬ totalWeight [((0 : ℚ), N)] = 0 by rw [htot]; exact hN')]
    have hz : distLookupZero [((0 : ℚ), N)] = N := by
      simp [distLookupZero, List.find?]
    rw [hz, htot, div_self hN']
    rw [if_pos (by norm_num : (1 : ℚ) - 1 = 0)]
    rfl

/-- Witness for C7's amended statement at `P = 5`, `N = 3`. -/
theorem constant_table_statistics_witness :
    get_distribution_average [((5 : ℚ), (3 : ℚ))] = .ok 5 ∧
    non_zero_hitrate [((5 : ℚ), (3 : ℚ))] = .ok 1 :=
  ⟨(constant_table_statistics 5 3 (by norm_num)).1,
    (constant_table_statistics 5 3 (by norm_num)).2.2.2.1 (by norm_num)⟩

/-- Counterexample for C7 as stated: for the table of three copies of
payout `5`, the claim promises variance `0` from the statistics, but
`get_distribution_moments` raises instead of returning any moments. -/
theorem constant_table_statistics_counterexample :
    (get_distribution_moments [((5 : ℚ), (3 : ℚ))]).isOk = false := by
  have htot : totalWeight [((5 : ℚ), (3 : ℚ))] = 3 := by simp [totalWeight]
  have havg : avgVal [((5 : ℚ), (3 : ℚ))] = 5 := by
    rw [avgVal, totalWeight, dotSum]
    norm_num
  simp only [get_distribution_moments, get_distribution_average,
    if_neg (show ¬ totalWeight [((5 : ℚ), (3 : ℚ))] = 0 by rw [htot]; norm_num), havg]
  rw [if_pos (show (([((5 : ℚ), (3 : ℚ))] : WinDist).map
      (fun e => (e.1 - 5) ^ 2 * (e.2 / totalWeight [((5 : ℚ), (3 : ℚ))]))).sum = 0 by simp)]
  rfl

/-- Counterexample for C6 as stated: on the empty outcome table the
median query and the minimal-payout-granularity query do not signal an
error — they return the sentinel `0`. -/
theorem empty_table_sentinel_counterexample :
    get_distribution_median ([] : WinDist) = 0 ∧
    min_dist_difference ([] : WinDist) = 0 := by
  exact ⟨rfl, rfl⟩

/-- C6 (amended): on the empty outcome table the mean, moments,
hit-rate, max-win hit-rate, P(no win) and P(win < stake) queries all
signal an error, but `get_distribution_median` returns the sentinel
`0.0` and `min_dist_difference` returns the sentinel `0`. -/
theorem empty_table_statistics_behaviour :
    (get_distribution_average ([] : WinDist)).isOk = false ∧
    (get_distribution_moments ([] : WinDist)).isOk = false ∧
    (non_zero_hitrate ([] : WinDist)).isOk = false ∧
    (get_maxwin_hitrate ([] : WinDist)).isOk = false ∧
    (get_prob_no_win ([] : WinDist)).isOk = false ∧
    (prob_less_than_bet ([] : WinDist) 1).isOk = false ∧
    get_distribution_median ([] : WinDist) = 0 ∧
    min_dist_difference ([] : WinDist) = 0 := by
  exact ⟨rfl, rfl, rfl, rfl, rfl, rfl, rfl, rfl⟩

theorem cumWeightUpTo_cons (p w : ℚ) (rest : WinDist) (x : ℚ) :
    cumWeightUpTo ((p, w) :: rest) x =
      (if p ≤ x then w else 0) + cumWeightUpTo rest x := by
  simp only [cumWeightUpTo, List.filter_cons]
  split
  · rename_i h
    rw [if_pos (of_decide_eq_true h)]
    simp
  · rename_i h
    rw [if_neg (fun hc => h (decide_eq_true hc))]
    simp

theorem cumWeightUpTo_eq_zero (l : WinDist) (x : ℚ)
    (h : ∀ p ∈ distKeys l, x < p) : cumWeightUpTo l x = 0 := by
  induction l with
  | nil => simp [cumWeightUpTo]
  | cons e rest ih =>
    obtain ⟨p, w⟩ := e
    rw [cumWeightUpTo_cons]
    have hp : x < p := h p (by rw [distKeys_cons]; exact List.mem_cons_self _ _)
    rw [if_neg (not_le.mpr hp), ih (fun q hq => h q (by rw [distKeys_cons]; exact List.mem_cons_of_mem _ hq))]
    ring

theorem medianGo_spec (l : WinDist) (cum tot : ℚ) (hne : l ≠ [])
    (hsorted : (distKeys l).Sorted (· < ·))
    (hw : ∀ w ∈ l.map Prod.snd, 0 < w)
    (hcum0 : 0 ≤ cum) (hcum : cum < tot / 2)
    (htot : cum + totalWeight l = tot) :
    medianGo l cum tot ∈ distKeys l ∧
    tot / 2 ≤ cum + cumWeightUpTo l (medianGo l cum tot) ∧
    ∀ q : ℚ, q < medianGo l cum tot → cum + cumWeightUpTo l q < tot / 2 := by
  induction l generalizing cum with
  | nil => exact absurd rfl hne
  | cons e rest ih =>
    obtain ⟨p, w⟩ := e
    have hw0 : 0 < w := hw w (by simp)
    have hhead : ∀ q ∈ distKeys rest, p < q := by
      intro q hq
      have := (List.sorted_cons.mp (by rwa [distKeys_cons] at hsorted)).1
      exact this q hq
    have hsorted' : (distKeys rest).Sorted (· < ·) :=
      (List.sorted_cons.mp (by rwa [distKeys_cons] at hsorted)).2
    rw [totalWeight_cons] at htot
    by_cases hg : cum + w ≥ tot / 2
    · simp only [medianGo, if_pos hg]
      refine ⟨by rw [distKeys_cons]; exact List.mem_cons_self _ _, ?_, ?_⟩
      · rw [cumWeightUpTo_cons, if_pos (le_refl p), cumWeightUpTo_eq_zero rest p hhead]
        linarith
      · intro q hq
        rw [cumWeightUpTo_cons, if_neg (not_le.mpr hq),
          cumWeightUpTo_eq_zero rest q (fun z hz => lt_trans hq (hhead z hz))]
        linarith
    · push_neg at hg
      have hrest_ne : rest ≠ [] := by
        rintro rfl
        simp only [totalWeight, List.map_nil, List.sum_nil, add_zero] at htot
        linarith
      have hwrest : ∀ x ∈ rest.map Prod.snd, 0 < x := by
        intro x hx; exact hw x (by simp [hx])
      have ih' := ih (cum + w) hrest_ne hsorted' hwrest (by linarith) hg (by linarith)
      simp only [medianGo, if_neg (not_le.mpr hg)]
      obtain ⟨hm_mem, hm_ge, hm_lt⟩ := ih'
      refine ⟨by rw [distKeys_cons]; exact List.mem_cons_of_mem _ hm_mem, ?_, ?_⟩
      · have hpm : p ≤ medianGo rest (cum + w) tot := le_of_lt (hhead _ hm_mem)
        rw [cumWeightUpTo_cons, if_pos hpm]
        linarith
      · intro q hq
        by_cases hpq : p ≤ q
        · rw [cumWeightUpTo_cons, if_pos hpq]
          have := hm_lt q hq
          linarith
        · rw [cumWeightUpTo_cons, if_neg hpq,
            cumWeightUpTo_eq_zero rest q (fun z hz => lt_trans (not_le.mp hpq) (hhead z hz))]
          linarith

/-- C4: on a non-empty win distribution ordered by strictly ascending
payout with positive weights, `get_distribution_median` returns the
smallest payout at which the cumulative weight reaches half the total
weight: the result is a payout of the distribution, its cumulative
weight is `≥` half the total, and every smaller value has cumulative
weight `<` half the total. -/
theorem median_is_least_payout_reaching_half_weight (dist : WinDist)
    (hne : dist ≠ []) (hsorted : (distKeys dist).Sorted (· < ·))
    (hw : ∀ w ∈ dist.map Prod.snd, 0 < w) :
    get_distribution_median dist ∈ distKeys dist ∧
    totalWeight dist / 2 ≤ cumWeightUpTo dist (get_distribution_median dist) ∧
    ∀ q : ℚ, q < get_distribution_median dist →
      cumWeightUpTo dist q < totalWeight dist / 2 := by
  have htotpos : 0 < totalWeight dist := totalWeight_pos dist hne hw
  have h := medianGo_spec dist 0 (totalWeight dist) hne hsorted hw le_rfl
    (by linarith) (by ring)
  simpa [get_distribution_median] using h

/-- Witness for C4 at the uniform distribution
`{1 ↦ 1, 2 ↦ 1, 3 ↦ 1, 4 ↦ 1}` (median `2`, where the cumulative
weight first reaches `2 = 4/2`). -/
theorem median_is_least_payout_reaching_half_weight_witness :
    get_distribution_median
        [((1 : ℚ), (1 : ℚ)), (2, 1), (3, 1), (4, 1)] ∈
      distKeys [((1 : ℚ), (1 : ℚ)), (2, 1), (3, 1), (4, 1)] ∧
    totalWeight [((1 : ℚ), (1 : ℚ)), (2, 1), (3, 1), (4, 1)] / 2 ≤
      cumWeightUpTo [((1 : ℚ), (1 : ℚ)), (2, 1), (3, 1), (4, 1)]
        (get_distribution_median [((1 : ℚ), (1 : ℚ)), (2, 1), (3, 1), (4, 1)]) ∧
    ∀ q : ℚ, q < get_distribution_median [((1 : ℚ), (1 : ℚ)), (2, 1), (3, 1), (4, 1)] →
      cumWeightUpTo [((1 : ℚ), (1 : ℚ)), (2, 1), (3, 1), (4, 1)] q <
        totalWeight [((1 : ℚ), (1 : ℚ)), (2, 1), (3, 1), (4, 1)] / 2 :=
  median_is_least_payout_reaching_half_weight _ (by simp)
    (by norm_num [distKeys, List.Sorted]) (by norm_num)

theorem cascadeLoop_cons_pos (d : ℚ) (rest : List ℚ) (w0 : ℚ) (lvl : ℕ)
    (h : 0 < w0) :
    cascadeLoop (d :: rest) w0 false lvl = cascadeLoop rest d false (lvl + 1) := by
  rw [cascadeLoop, if_pos ⟨h, rfl⟩]

theorem cascadeLoop_nonpos (rest : List ℚ) (d : ℚ) (lvl : ℕ) (h : ¬ 0 < d) :
    cascadeLoop rest d false lvl = lvl := by
  cases rest with
  | nil => rw [cascadeLoop]
  | cons e es =>
    rw [cascadeLoop, if_neg]
    rintro ⟨h0, -⟩
    exact h h0

theorem cascadeLoop_replicate_one (n lvl : ℕ) :
    cascadeLoop (List.replicate n 1) 1 false lvl = lvl + n := by
  induction n generalizing lvl with
  | zero => rw [List.replicate_zero, cascadeLoop]; omega
  | succ k ih =>
    rw [List.replicate_succ, cascadeLoop_cons_pos _ _ _ _ one_pos, ih (lvl + 1)]
    omega

/-- Counterexample for C2 as stated: no iteration count bounds the
cascade loop of `run_spin` — for every candidate bound `N` there is a
sequence of drawn boards (each re-evaluation winning `1`) on which the
loop runs more than `N` iterations, and no configuration error is
raised.  (`wincap_triggered` is `false` throughout, since only
`evaluate_finalwin`, which runs after the loop, ever sets it.) -/
theorem cascade_no_configured_iteration_bound :
    ¬ ∃ N : ℕ, ∀ draws : List ℚ, cascadeLoop draws 1 false 0 ≤ N := by
  rintro ⟨N, h⟩
  have hN := h (List.replicate (N + 1) 1)
  rw [cascadeLoop_replicate_one] at hN
  omega

theorem cascadeLoop_count (draws : List ℚ) (w0 : ℚ) (lvl : ℕ) (h : 0 < w0) :
    cascadeLoop draws w0 false lvl =
      lvl + min ((draws.takeWhile (fun d => decide (0 < d))).length + 1) draws.length := by
  induction draws generalizing w0 lvl with
  | nil => rw [cascadeLoop]; simp
  | cons d rest ih =>
    rw [cascadeLoop_cons_pos _ _ _ _ h]
    by_cases hd : 0 < d
    · rw [ih d (lvl + 1) hd]
      simp [List.takeWhile_cons, hd]
      omega
    · rw [cascadeLoop_nonpos rest d (lvl + 1) hd]
      simp [List.takeWhile_cons, hd]

/-- C2 (amended): the cascade loop of `run_spin` enforces no maximum
iteration count; `wincap_triggered` is never set inside the loop, so
the loop runs exactly until the first re-evaluation with non-positive
total win: its iteration count is the number of leading strictly
positive evaluation totals plus the initial winning evaluation (capped
by the length of the modelled draw trace), unbounded over draw
sequences, and no error is ever signalled. -/
theorem cascade_loop_iteration_count (draws : List ℚ) (w0 : ℚ) (h : 0 < w0) :
    cascadeLoop draws w0 false 0 =
      min ((draws.takeWhile (fun d => decide (0 < d))).length + 1) draws.length := by
  have := cascadeLoop_count draws w0 0 h
  simpa using this

/-- Witness for C2's amended statement: with draws `[1, 0]` from an
initial winning evaluation, the loop runs exactly 2 iterations. -/
theorem cascade_loop_iteration_count_witness :
    cascadeLoop [(1 : ℚ), 0] 1 false 0 =
      min ((([(1 : ℚ), 0]).takeWhile (fun d => decide (0 < d))).length + 1)
        ([(1 : ℚ), 0]).length :=
  cascade_loop_iteration_count [(1 : ℚ), 0] 1 one_pos

/-- C3: whenever the accept/redraw loop of `run_spin` accepts a round
(returns a final win `w` instead of redrawing), the accepted round
satisfies the declared exact win criterion when one is declared, and
has non-zero final win when none is declared — because `check_repeat`
forces a redraw in every other case. -/
theorem accepted_round_meets_win_criteria (wc : Option ℚ)
    (trace : List (Bool × ℚ)) (w : ℚ)
    (h : runSpinLoop wc trace = some w) :
    (∀ c : ℚ, wc = some c → w = c) ∧ (wc = none → w ≠ 0) := by
  induction trace with
  | nil => exact absurd h (by simp [runSpinLoop])
  | cons r rest ih =>
    obtain ⟨superRepeat, fw⟩ := r
    rw [runSpinLoop] at h
    by_cases hr : check_repeat_ways superRepeat fw wc = true
    · rw [if_pos hr] at h
      exact ih h
    · rw [if_neg hr] at h
      have hw : fw = w := by injection h
      subst hw
      constructor
      · rintro c rfl
        simp only [check_repeat_ways] at hr
        by_cases hs : superRepeat
        · exact absurd (if_pos hs) hr
        · rw [if_neg hs] at hr
          by_cases hfc : fw = c
          · exact hfc
          · exact absurd (by rw [if_pos hfc]) hr
      · rintro rfl
        simp only [check_repeat_ways] at hr
        by_cases hs : superRepeat
        · exact absurd (if_pos hs) hr
        · rw [if_neg hs] at hr
          intro hfw
          exact hr (by rw [if_pos hfw])

/-- Witness for C3: with declared criterion `5` and a trace in which
the first drawn round wins `3` (rejected, redrawn) and the second wins
`5` (accepted), the accepted win equals the criterion. -/
theorem accepted_round_meets_win_criteria_witness :
    (∀ c : ℚ, (some (5 : ℚ)) = some c → (5 : ℚ) = c) ∧
    (some (5 : ℚ) = none → (5 : ℚ) ≠ 0) :=
  accepted_round_meets_win_criteria (some 5) [(false, 3), (false, 5)] 5 (by decide)

theorem updAt_mem {α : Type} (l : List α) (i : ℕ) (f : α → α) (x : α)
    (hx : x ∈ updAt l i f) : x ∈ l ∨ ∃ y ∈ l, x = f y := by
  induction l generalizing i with
  | nil => exact absurd hx (by simp [updAt])
  | cons a as ih =>
    cases i with
    | zero =>
      rcases List.mem_cons.mp hx with rfl | h
      · exact Or.inr ⟨a, List.mem_cons_self _ _, rfl⟩
      · exact Or.inl (List.mem_cons_of_mem _ h)
    | succ n =>
      rcases List.mem_cons.mp hx with rfl | h
      · exact Or.inl (List.mem_cons_self _ _)
      · rcases ih n h with h' | ⟨y, hy, rfl⟩
        · exact Or.inl (List.mem_cons_of_mem _ h')
        · exact Or.inr ⟨y, List.mem_cons_of_mem _ hy, rfl⟩

/-- The value invariant of the multiplier overlay: a cell is `0` or a
doubling-progression value clamped at the cap. -/
def MultVal (cap v : ℕ) : Prop := v = 0 ∨ ∃ k : ℕ, v = min (2 ^ (k + 1)) cap

theorem gridStep_inv (cap v : ℕ) (h : MultVal cap v) : MultVal cap (gridStep cap v) := by
  rcases h with rfl | ⟨k, rfl⟩
  · refine Or.inr ⟨0, ?_⟩
    simp [gridStep]
  · rcases le_or_lt (2 ^ (k + 1)) cap with hle | hlt
    · rw [min_eq_left hle]
      refine Or.inr ⟨k + 1, ?_⟩
      rw [gridStep, if_neg (pow_pos (by norm_num : (0 : ℕ) < 2) (k + 1)).ne', ← pow_succ]
    · rw [min_eq_right hlt.le]
      by_cases hc : cap = 0
      · subst hc
        exact Or.inl (by simp [gridStep])
      · refine Or.inr ⟨k, ?_⟩
        rw [min_eq_right hlt.le, gridStep, if_neg hc]
        exact min_eq_right (by omega)

/-- The overlay invariant: every stored value satisfies `MultVal`. -/
def GridInv (cap : ℕ) (g : List (List ℕ)) : Prop :=
  ∀ row ∈ g, ∀ v ∈ row, MultVal cap v

theorem applyWinPos_inv (cap : ℕ) (g : List (List ℕ)) (pos : ℕ × ℕ)
    (h : GridInv cap g) : GridInv cap (applyWinPos cap g pos) := by
  intro row hrow v hv
  rcases updAt_mem g pos.1 _ row hrow with hg | ⟨oldrow, holdrow, rfl⟩
  · exact h row hg v hv
  · rcases updAt_mem oldrow pos.2 _ v hv with hold | ⟨y, hy, rfl⟩
    · exact h oldrow holdrow v hold
    · exact gridStep_inv cap y (h oldrow holdrow y hy)

theorem update_grid_mults_inv (cap : ℕ) (positions : List (ℕ × ℕ)) :
    ∀ g, GridInv cap g → GridInv cap (update_grid_mults cap g positions) := by
  induction positions with
  | nil => intro g h; exact h
  | cons p ps ih =>
    intro g h
    exact ih _ (applyWinPos_inv cap g p h)

theorem cascade_steps_inv (cap : ℕ) (steps : List (List (ℕ × ℕ))) :
    ∀ g, GridInv cap g → GridInv cap (steps.foldl (update_grid_mults cap) g) := by
  induction steps with
  | nil => intro g h; exact h
  | cons s ss ih =>
    intro g h
    exact ih _ (update_grid_mults_inv cap s g h)

theorem reset_grid_inv (cap numReels : ℕ) (numRows : ℕ → ℕ) :
    GridInv cap (reset_grid_mults numReels numRows) := by
  intro row hrow v hv
  simp only [reset_grid_mults, List.mem_map, List.mem_range] at hrow
  obtain ⟨reel, -, rfl⟩ := hrow
  exact Or.inl (List.eq_of_mem_replicate hv)

/-- C8: starting from the all-zero overlay of `reset_grid_mults`, after
any sequence of cascade-step updates by `update_grid_mults`, every
stored value is `0` or a power of two no greater than the configured
cap, provided the cap (`maximum_board_mult`, modelled as `8192` from
the docstring's `x2...x8192` progression) is a power of two. -/
theorem position_multiplier_overlay_invariant
    (cap : ℕ) (hcap : ∃ j : ℕ, cap = 2 ^ j)
    (numReels : ℕ) (numRows : ℕ → ℕ) (steps : List (List (ℕ × ℕ)))
    (row : List ℕ) (v : ℕ)
    (hrow : row ∈ steps.foldl (update_grid_mults cap) (reset_grid_mults numReels numRows))
    (hv : v ∈ row) :
    v = 0 ∨ ∃ k : ℕ, v = 2 ^ k ∧ v ≤ cap := by
  obtain ⟨j, rfl⟩ := hcap
  have hinv := cascade_steps_inv _ steps _ (reset_grid_inv _ numReels numRows) row hrow v hv
  rcases hinv with rfl | ⟨k, rfl⟩
  · exact Or.inl rfl
  · refine Or.inr ?_
    rcases min_choice (2 ^ (k + 1)) (2 ^ j) with h | h
    · exact ⟨k + 1, h, h ▸ min_le_right _ _⟩
    · exact ⟨j, h, h ▸ min_le_right _ _⟩

/-- Witness for C8: a 1×1 overlay hit twice reaches value `4 = 2^2`,
within the modelled cap `8192`. -/
theorem position_multiplier_overlay_invariant_witness :
    (4 : ℕ) = 0 ∨ ∃ k : ℕ, (4 : ℕ) = 2 ^ k ∧ 4 ≤ maximum_board_mult :=
  position_multiplier_overlay_invariant maximum_board_mult
    ⟨13, by norm_num [maximum_board_mult]⟩ 1 (fun _ => 1)
    [[(0, 0)], [(0, 0)]] [4] 4 (by decide) (by decide)

theorem mem_matchedBookIds_aux (k : List (String × String))
    (force : List ForceEntry) (acc : Finset ℤ) (b : ℤ) :
    (b ∈ force.foldl
        (fun acc e => if entryMatches k e then acc ∪ e.bookIds.toFinset else acc) acc) ↔
      b ∈ acc ∨ ∃ e ∈ force, entryMatches k e = true ∧ b ∈ e.bookIds := by
  induction force generalizing acc with
  | nil => simp
  | cons e rest ih =>
    simp only [List.foldl_cons]
    by_cases he : entryMatches k e
    · rw [if_pos he, ih]
      simp only [Finset.mem_union, List.mem_toFinset, List.mem_cons]
      constructor
      · rintro ((hb | hb) | ⟨e', he', hm, hb⟩)
        · exact Or.inl hb
        · exact Or.inr ⟨e, Or.inl rfl, he, hb⟩
        · exact Or.inr ⟨e', Or.inr he', hm, hb⟩
      · rintro (hb | ⟨e', (rfl | he'), hm, hb⟩)
        · exact Or.inl (Or.inl hb)
        · exact Or.inl (Or.inr hb)
        · exact Or.inr ⟨e', he', hm, hb⟩
    · rw [if_neg he, ih]
      constructor
      · rintro (hb | ⟨e', he', hm, hb⟩)
        · exact Or.inl hb
        · exact Or.inr ⟨e', List.mem_cons_of_mem _ he', hm, hb⟩
      · rintro (hb | ⟨e', he', hm, hb⟩)
        · exact Or.inl hb
        · rcases List.mem_cons.mp he' with rfl | he''
          · exact absurd hm he
          · exact Or.inr ⟨e', he'', hm, hb⟩

theorem mem_matchedBookIds (k : List (String × String))
    (force : List ForceEntry) (b : ℤ) :
    b ∈ matchedBookIds k force ↔
      ∃ e ∈ force, entryMatches k e = true ∧ b ∈ e.bookIds := by
  rw [matchedBookIds, mem_matchedBookIds_aux]
  simp

theorem mem_foldl_inter (s : Finset ℤ) (rest : List (Finset ℤ)) (b : ℤ) :
    b ∈ rest.foldl (fun a c => a ∩ c) s ↔ b ∈ s ∧ ∀ t ∈ rest, b ∈ t := by
  induction rest generalizing s with
  | nil => simp
  | cons t ts ih =>
    simp only [List.foldl_cons, ih, Finset.mem_inter, List.mem_cons]
    constructor
    · rintro ⟨⟨hs, ht⟩, hts⟩
      exact ⟨hs, fun u hu => by rcases hu with rfl | hu; exacts [ht, hts u hu]⟩
    · rintro ⟨hs, hall⟩
      exact ⟨⟨hs, hall t (Or.inl rfl)⟩, fun u hu => hall u (Or.inr hu)⟩

theorem collectIdSets_ok (force : List ForceEntry)
    (arr : List (List (String × String)))
    (hk : ∀ k ∈ arr, k ≠ [])
    (hne : ∀ k ∈ arr, matchedBookIds k force ≠ ∅) :
    collectIdSets force arr = .ok (arr.map (fun k => matchedBookIds k force)) := by
  induction arr with
  | nil => rfl
  | cons k rest ih =>
    have hk0 : k ≠ [] := hk k (List.mem_cons_self _ _)
    have hne0 : matchedBookIds k force ≠ ∅ := hne k (List.mem_cons_self _ _)
    rw [collectIdSets, find_partial_key_match, if_neg hk0]
    simp only [if_neg hne0]
    rw [ih (fun q hq => hk q (List.mem_cons_of_mem _ hq))
      (fun q hq => hne q (List.mem_cons_of_mem _ hq))]
    simp

/-- C9: a force-index query with two or more (non-empty, individually
matching) search keys returns exactly the intersection of the per-key
sets of matching round ids — membership in the result is membership in
every per-key set — and signals an error when that intersection is
empty; a single-key query (`find_partial_key_match`) returns the union
of the book ids of the force-file entries all of whose queried search
fields match the key. -/
theorem force_index_union_intersection
    (arr : List (List (String × String))) (force : List ForceEntry)
    (h2 : 2 ≤ arr.length) (hk : ∀ k ∈ arr, k ≠ [])
    (hne : ∀ k ∈ arr, matchedBookIds k force ≠ ∅) :
    (interMatchSets arr force ≠ ∅ →
      find_union_key_match arr force = .ok (interMatchSets arr force) ∧
      ∀ b : ℤ, b ∈ interMatchSets arr force ↔
        ∀ k ∈ arr, b ∈ matchedBookIds k force) ∧
    (interMatchSets arr force = ∅ → (find_union_key_match arr force).isOk = false) ∧
    (∀ k : List (String × String), k ≠ [] → matchedBookIds k force ≠ ∅ →
      find_partial_key_match k force = .ok (matchedBookIds k force) ∧
      ∀ b : ℤ, b ∈ matchedBookIds k force ↔
        ∃ e ∈ force, entryMatches k e = true ∧ b ∈ e.bookIds) := by
  have harr : arr ≠ [] := by
    intro h; rw [h] at h2; exact absurd h2 (by norm_num)
  have hnotlt : ¬ arr.length < 2 := not_lt.mpr h2
  have hcollect := collectIdSets_ok force arr hk hne
  have hunfold : ∀ inter : Finset ℤ, interMatchSets arr force = inter →
      (inter ≠ ∅ → find_union_key_match arr force = .ok inter) ∧
      (inter = ∅ → (find_union_key_match arr force).isOk = false) := by
    intro inter hinter
    rw [find_union_key_match, if_neg harr, if_neg hnotlt, hcollect]
    match arr, harr with
    | k :: rest, _ =>
      rw [interMatchSets] at hinter
      simp only [List.map_cons] at hinter ⊢
      rw [hinter]
      constructor
      · intro hni
        rw [if_neg hni]
      · intro hi
        rw [if_pos hi]
        rfl
  refine ⟨?_, ?_, ?_⟩
  · intro hni
    refine ⟨((hunfold _ rfl).1 hni), ?_⟩
    intro b
    match arr, harr with
    | k :: rest, _ =>
      rw [interMatchSets]
      simp only [List.map_cons]
      rw [mem_foldl_inter]
      constructor
      · rintro ⟨hb, hall⟩ q hq
        rcases List.mem_cons.mp hq with rfl | hq'
        · exact hb
        · exact hall _ (List.mem_map_of_mem _ hq')
      · intro hall
        refine ⟨hall k (List.mem_cons_self _ _), ?_⟩
        intro t ht
        obtain ⟨q, hq, rfl⟩ := List.mem_map.mp ht
        exact hall q (List.mem_cons_of_mem _ hq)
  · exact (hunfold _ rfl).2
  · intro k hk0 hne0
    refine ⟨?_, fun b => mem_matchedBookIds k force b⟩
    rw [find_partial_key_match, if_neg hk0]
    simp only [if_neg hne0]

/-- Witness for C9 on a concrete force file of three entries: the
two-key query returns the singleton intersection `{4}`; a single-key
query returns the union `{1, 2, 4}`. -/
theorem force_index_union_intersection_witness :
    find_union_key_match [[("sym", "S")], [("kind", "x")]]
        [⟨[("sym", "S")], [1, 2]⟩, ⟨[("sym", "T"), ("kind", "x")], [3]⟩,
          ⟨[("sym", "S"), ("kind", "x")], [4]⟩] =
      .ok (interMatchSets [[("sym", "S")], [("kind", "x")]]
        [⟨[("sym", "S")], [1, 2]⟩, ⟨[("sym", "T"), ("kind", "x")], [3]⟩,
          ⟨[("sym", "S"), ("kind", "x")], [4]⟩]) :=
  ((force_index_union_intersection
      [[("sym", "S")], [("kind", "x")]]
      [⟨[("sym", "S")], [1, 2]⟩, ⟨[("sym", "T"), ("kind", "x")], [3]⟩,
        ⟨[("sym", "S"), ("kind", "x")], [4]⟩]
      (by norm_num) (by decide) (by decide)).1 (by decide)).1

theorem findClusterLoop_skip (cfg : ClusterConfig) (board : Board) (sym : String)
    (f : ℕ) (p : Pos) (rest visited cluster : List Pos)
    (h : p ∈ visited ∨ ¬ boardInBounds board p) :
    findClusterLoop cfg board sym (f + 1) (p :: rest) visited cluster =
      findClusterLoop cfg board sym f rest visited cluster := by
  rw [findClusterLoop, if_pos h]

theorem findClusterLoop_nomatch (cfg : ClusterConfig) (board : Board) (sym : String)
    (f : ℕ) (p : Pos) (rest visited cluster : List Pos)
    (h1 : ¬ (p ∈ visited ∨ ¬ boardInBounds board p))
    (h2 : ¬ symbols_match cfg (some sym) (boardCell board p) = true) :
    findClusterLoop cfg board sym (f + 1) (p :: rest) visited cluster =
      findClusterLoop cfg board sym f rest visited cluster := by
  rw [findClusterLoop, if_neg h1, if_pos h2]

theorem findClusterLoop_visit (cfg : ClusterConfig) (board : Board) (sym : String)
    (f : ℕ) (p : Pos) (rest visited cluster : List Pos)
    (h1 : ¬ (p ∈ visited ∨ ¬ boardInBounds board p))
    (h2 : symbols_match cfg (some sym) (boardCell board p) = true) :
    findClusterLoop cfg board sym (f + 1) (p :: rest) visited cluster =
      findClusterLoop cfg board sym f
        ((([(p.1, p.2 + 1), (p.1, p.2 - 1), (p.1 + 1, p.2), (p.1 - 1, p.2)]).filter
            (fun q => decide (q ∉ visited))).reverse ++ rest)
        (p :: visited) (cluster ++ [p]) := by
  rw [findClusterLoop, if_neg h1, if_neg (not_not_intro h2)]

theorem findClusterLoop_visited_mono (cfg : ClusterConfig) (board : Board)
    (sym : String) :
    ∀ (fuel : ℕ) (stack visited cluster : List Pos),
      visited ⊆ (findClusterLoop cfg board sym fuel stack visited cluster).2 := by
  intro fuel
  induction fuel with
  | zero => intro stack visited cluster x hx; exact hx
  | succ f ih =>
    intro stack visited cluster
    cases stack with
    | nil => intro x hx; exact hx
    | cons p rest =>
      by_cases h1 : p ∈ visited ∨ ¬ boardInBounds board p
      · rw [findClusterLoop_skip cfg board sym f p rest visited cluster h1]
        exact ih rest visited cluster
      · by_cases h2 : symbols_match cfg (some sym) (boardCell board p) = true
        · rw [findClusterLoop_visit cfg board sym f p rest visited cluster h1 h2]
          exact fun x hx => ih _ _ _ (List.mem_cons_of_mem p hx)
        · rw [findClusterLoop_nomatch cfg board sym f p rest visited cluster h1 h2]
          exact ih rest visited cluster

theorem findClusterLoop_cluster_spec (cfg : ClusterConfig) (board : Board)
    (sym : String) :
    ∀ (fuel : ℕ) (stack visited cluster : List Pos) (q : Pos),
      q ∈ (findClusterLoop cfg board sym fuel stack visited cluster).1 →
      q ∈ cluster ∨
        (q ∈ (findClusterLoop cfg board sym fuel stack visited cluster).2 ∧
          q ∉ visited) := by
  intro fuel
  induction fuel with
  | zero => intro stack visited cluster q hq; exact Or.inl hq
  | succ f ih =>
    intro stack visited cluster q
    cases stack with
    | nil => intro hq; exact Or.inl hq
    | cons p rest =>
      by_cases h1 : p ∈ visited ∨ ¬ boardInBounds board p
      · rw [findClusterLoop_skip cfg board sym f p rest visited cluster h1]
        exact ih rest visited cluster q
      · by_cases h2 : symbols_match cfg (some sym) (boardCell board p) = true
        · rw [findClusterLoop_visit cfg board sym f p rest visited cluster h1 h2]
          intro hq
          rcases ih _ _ _ q hq with hq' | ⟨hin, hnin⟩
          · rcases List.mem_append.mp hq' with hc | hp
            · exact Or.inl hc
            · have hqp : q = p := by simpa using hp
              subst hqp
              refine Or.inr ⟨?_, (not_or.mp h1).1⟩
              exact findClusterLoop_visited_mono cfg board sym f _ (q :: visited)
                (cluster ++ [q]) (List.mem_cons_self _ _)
          · exact Or.inr ⟨hin, fun hv => hnin (List.mem_cons_of_mem _ hv)⟩
        · rw [findClusterLoop_nomatch cfg board sym f p rest visited cluster h1 h2]
          exact ih rest visited cluster q

theorem find_cluster_cases (cfg : ClusterConfig) (board : Board) (p : Pos)
    (visited : List Pos) :
    find_cluster cfg board p visited = ([], visited) ∨
    ∃ sym : String,
      find_cluster cfg board p visited =
        findClusterLoop cfg board sym (clusterFuel board) [p] visited [] := by
  rw [find_cluster]
  by_cases h1 : ¬ boardInBounds board p = true
  · rw [if_pos h1]; exact Or.inl rfl
  · rw [if_neg h1]
    by_cases h2 : p ∈ visited
    · rw [if_pos h2]; exact Or.inl rfl
    · rw [if_neg h2]
      cases hc : boardCell board p with
      | none => exact Or.inl rfl
      | some sym =>
        dsimp only
        by_cases h3 : sym = "" ∨ cfg.evolutionStones.contains sym = true
        · rw [if_pos h3]; exact Or.inl rfl
        · rw [if_neg h3]; exact Or.inr ⟨sym, rfl⟩

theorem find_cluster_visited_mono (cfg : ClusterConfig) (board : Board)
    (p : Pos) (visited : List Pos) :
    visited ⊆ (find_cluster cfg board p visited).2 := by
  rcases find_cluster_cases cfg board p visited with h | ⟨sym, h⟩
  · rw [h]; exact fun x hx => hx
  · rw [h]; exact findClusterLoop_visited_mono cfg board sym _ _ _ _

theorem find_cluster_spec (cfg : ClusterConfig) (board : Board)
    (p : Pos) (visited : List Pos) (q : Pos)
    (hq : q ∈ (find_cluster cfg board p visited).1) :
    q ∈ (find_cluster cfg board p visited).2 ∧ q ∉ visited := by
  rcases find_cluster_cases cfg board p visited with h | ⟨sym, h⟩
  · rw [h] at hq; exact absurd hq (by simp)
  · rw [h] at hq ⊢
    rcases findClusterLoop_cluster_spec cfg board sym _ _ _ _ q hq with h' | h'
    · exact absurd h' (by simp)
    · exact h'

theorem gccAux_skip (cfg : ClusterConfig) (board : Board) (p : Pos)
    (rest visited : List Pos) (acc : List (List Pos)) (h : p ∈ visited) :
    gccAux cfg board (p :: rest) visited acc = gccAux cfg board rest visited acc := by
  rw [gccAux, if_pos h]

theorem gccAux_keep (cfg : ClusterConfig) (board : Board) (p : Pos)
    (rest visited : List Pos) (acc : List (List Pos)) (h1 : p ∉ visited)
    (h2 : 5 ≤ (find_cluster cfg board p visited).1.length) :
    gccAux cfg board (p :: rest) visited acc =
      gccAux cfg board rest (find_cluster cfg board p visited).2
        (acc ++ [(find_cluster cfg board p visited).1]) := by
  rw [gccAux, if_neg h1, if_pos h2]

theorem gccAux_drop (cfg : ClusterConfig) (board : Board) (p : Pos)
    (rest visited : List Pos) (acc : List (List Pos)) (h1 : p ∉ visited)
    (h2 : ¬ 5 ≤ (find_cluster cfg board p visited).1.length) :
    gccAux cfg board (p :: rest) visited acc =
      gccAux cfg board rest (find_cluster cfg board p visited).2 acc := by
  rw [gccAux, if_neg h1, if_neg h2]

/-- The disjointness relation between two clusters. -/
def ClusterDisjoint (c₁ c₂ : List Pos) : Prop := ∀ q ∈ c₁, q ∉ c₂

theorem gccAux_disjoint (cfg : ClusterConfig) (board : Board) :
    ∀ (positions visited : List Pos) (acc : List (List Pos)),
      (∀ cl ∈ acc, ∀ q ∈ cl, q ∈ visited) →
      acc.Pairwise ClusterDisjoint →
      (gccAux cfg board positions visited acc).Pairwise ClusterDisjoint := by
  intro positions
  induction positions with
  | nil => intro visited acc hsub hpw; exact hpw
  | cons p rest ih =>
    intro visited acc hsub hpw
    by_cases h1 : p ∈ visited
    · rw [gccAux_skip cfg board p rest visited acc h1]
      exact ih visited acc hsub hpw
    · by_cases h2 : 5 ≤ (find_cluster cfg board p visited).1.length
      · rw [gccAux_keep cfg board p rest visited acc h1 h2]
        apply ih
        · intro cl hcl q hq
          rcases List.mem_append.mp hcl with hacc | hnew
          · exact find_cluster_visited_mono cfg board p visited (hsub cl hacc q hq)
          · have hcl' : cl = (find_cluster cfg board p visited).1 := by simpa using hnew
            subst hcl'
            exact (find_cluster_spec cfg board p visited q hq).1
        · rw [List.pairwise_append]
          refine ⟨hpw, List.pairwise_singleton _ _, ?_⟩
          intro a ha b hb q hqa
          have hb' : b = (find_cluster cfg board p visited).1 := by simpa using hb
          subst hb'
          intro hqb
          exact (find_cluster_spec cfg board p visited q hqb).2 (hsub a ha q hqa)
      · rw [gccAux_drop cfg board p rest visited acc h1 h2]
        apply ih
        · intro cl hcl q hq
          exact find_cluster_visited_mono cfg board p visited (hsub cl hcl q hq)
        · exact hpw

/-- C1 (amended): `get_current_clusters` explores clusters with a
single `visited` set shared across all `find_cluster` calls, so the
returned clusters are pairwise disjoint: a wild adjacent to two
different non-wild clusters is counted only toward the first cluster
explored in scan order, never toward both. -/
theorem clusters_pairwise_disjoint (cfg : ClusterConfig) (board : Board) :
    (get_current_clusters cfg board).Pairwise ClusterDisjoint :=
  gccAux_disjoint cfg board (rowMajorPositions board) [] []
    (fun cl hcl => absurd hcl (by simp)) List.Pairwise.nil

/-- Counterexample for C1 as stated: on `wildAdjacencyBoard` the wild
at `(2,1)` is 4-directionally adjacent to the five-`A` cluster and the
five-`B` cluster, and both clusters are returned, yet the wild is a
member of the first returned cluster only, not of both. -/
theorem wild_counts_toward_first_cluster_only :
    (get_current_clusters wildCfg wildAdjacencyBoard).map
      (fun c => decide (((2 : ℤ), (1 : ℤ)) ∈ c)) = [true, false] := by
  decide
